import Mathlib

/-! RSA accumulator (`accumulator.go`).

A shallow embedding of the Go package `accumulator`: `HashToPrime`, `GenerateKey`,
`PrivateKey.Accumulate` and `PublicKey.Verify`, together with the `math/big`
operations they call (`Mod`, `Exp`, `ModInverse`, `GCD`), followed by the
properties of the accumulator proved about these definitions.

Conventions.

* A `*big.Int` is an `Int`.
* A run-time panic (an explicit `panic`, a division by zero inside `math/big`,
  the use of a `nil` result) is `none`; a function that can panic returns an
  `Option`.
* An `error` result is `Except.error`.
* A call of `rand.Prime` is not a function of its reader alone: `crypto/rand` may
  read one byte off the reader before the search, at the choice of the
  runtime, or replace the reader by the randomness of the system. What a call
  takes from outside its reader is an explicit argument `ω`, and every call
  has its own.
* The loop `for { ... }` of `GenerateKey` has no exit condition of its own; it is
  run with a bound on the number of passes, and `none` means that it has not
  returned within the bound.
* The two `concurrency.ParallelFor` loops write slot `i` of a slice from item
  `i` alone; they are modelled by the function `ParallelFor`, which fills the
  slots in index order and panics if any slot panics.
-/

namespace Accumulator

/-- A Go `[]byte`. -/
abbrev Bytes := List UInt8

/-! ## Library operations used by the package -/

/-- The calls into `golang.org/x/crypto/sha3` and `crypto/rand` that `HashToPrime`
makes, taken as parameters. `H` is the state of a SHAKE256 sponge and `Ω` is
what one call of `rand.Prime` takes from outside its reader.

* `NewShake256` is `sha3.NewShake256()`;
* `Write h data` is the sponge after `h.Write(data)`;
* `Prime ω h bits` is `rand.Prime(h, bits)` for the call whose outside input is
  `ω`: the probable prime found, or the error of the search. The value is
  built from bytes, so it is a natural number. Two calls on the same sponge
  state with different `ω` need not return the same prime. -/
structure Sha3Rand (H Ω : Type) where
  NewShake256 : H
  Write : H → Bytes → H
  Prime : Ω → H → Nat → Except String Nat

/-- The method `(*big.Int).Mod`: `z = x mod y` with the Euclidean modulus (the result is
never negative); a division-by-zero panic for `y = 0`. -/
def Mod (x y : Int) : Option Int :=
  if y = 0 then none else some (x % y)

/-- The method `(*big.Int).Exp` for an exponent `y ≥ 0`, which is all the package passes to
it (the exponent is `1`, a result of `Mod`, or a value of `rand.Prime`), so the
exponent is a natural number here: `x ^ y mod |m|`, the sign of `m` being
ignored and the result lying in `[0, |m|)`; for `m = 0` there is no reduction
and the result is `x ^ y`, which the program has to build in full.
(`Int.emod` ignores the sign of the modulus and leaves its argument unchanged
for modulus `0`.) -/
def Exp (x : Int) (y : Nat) (m : Int) : Int :=
  x ^ y % m

/-- The method `(*big.Int).ModInverse`: the multiplicative inverse of `g` in the ring
`ℤ/nℤ`, in the range `[0, |n|)` for `n ≠ 0`. When `g` has no inverse the
library returns `nil`, modelled as `none` (the caller dereferences the result
at once). For `n = 0` the library returns `1` for `g = 1`, `nil` for the other
`g ≥ 0` and panics with a division by zero for `g < 0`. -/
def ModInverse (g n : Int) : Option Int :=
  if n = 0 then (if g = 1 then some 1 else none)
  else if Int.gcd g n ≠ 1 then none
  else ((List.range n.natAbs).find? (fun (z : Nat) => decide (g * (z : Int) % n = 1 % n))).map
    Int.ofNat

/-- The loop `concurrency.ParallelFor(len(xs), ...)` whose body computes slot `i` of the output
slice from slot `i` of `xs`: every slot is computed, and a panic in any of them
brings the program down. -/
def ParallelFor {α β : Type} (body : α → Option β) : List α → Option (List β)
  | [] => some []
  | x :: xs =>
    match body x, ParallelFor body xs with
    | some y, some ys => some (y :: ys)
    | _, _ => none

/-! ## The package -/

/-- The function `HashToPrime`, for the call whose `rand.Prime` has the outside input `ω`:
absorb `data` into a fresh SHAKE256 sponge and search for a 256-bit probable
prime with that sponge as reader; `panic(err)` if the search fails. -/
def HashToPrime {H Ω : Type} (L : Sha3Rand H Ω) (ω : Ω) (data : Bytes) : Option Nat :=
  let h := L.NewShake256
  let h := L.Write h data
  match L.Prime ω h 256 with
  | .error _ => none
  | .ok p => some p

/-- The type `PrivateKey`. -/
structure PrivateKey where
  P : Int
  Q : Int
  /-- The modulus, `N = P*Q`. -/
  N : Int
  /-- The group order, `Totient = (P-1)*(Q-1)`. -/
  Totient : Int
deriving DecidableEq, Repr

/-- The type `PublicKey`. -/
structure PublicKey where
  N : Int
deriving DecidableEq, Repr

/-- The package variable `base`. -/
def base : Int := 65537

/-- The body of the first `ParallelFor` in `Accumulate`, `primes[i] = HashToPrime(items[i])`,
for the slot `(i, items[i])`; `ω i` is the outside input of the call made for
slot `i`. -/
def primeOf {H Ω : Type} (L : Sha3Rand H Ω) (ω : Nat → Ω) (slot : Nat × Bytes) : Option Nat :=
  HashToPrime L (ω slot.1) slot.2

/-- The loop `for i := range primes { exp.Mul(exp, primes[i]); exp.Mod(exp, key.Totient) }`
started from the value `exp`. -/
def expLoop (totient : Int) : List Nat → Int → Option Int
  | [], exp => some exp
  | p :: ps, exp =>
    match Mod (exp * (p : Int)) totient with
    | none => none
    | some exp1 => expLoop totient ps exp1

/-- The body of the second `ParallelFor` in `Accumulate`: the witness of the item whose
prime is `prime`. The exponent handed to `Exp` is a result of `Mod`, which is
not negative. -/
def witnessOf (key : PrivateKey) (exp : Int) (prime : Nat) : Option Int :=
  match ModInverse (prime : Int) key.Totient with
  | none => none
  | some inv =>
    match Mod (exp * inv) key.Totient with
    | none => none
    | some inv1 => some (Exp base inv1.toNat key.N)

/-- The method `PrivateKey.Accumulate`; `ω i` is the outside input of the `rand.Prime` call
that `HashToPrime(items[i])` makes in this execution. The exponent handed to
`Exp` is `1` or a result of `Mod`, which is not negative. -/
def Accumulate {H Ω : Type} (L : Sha3Rand H Ω) (key : PrivateKey) (ω : Nat → Ω)
    (items : List Bytes) : Option (Int × List Int) :=
  match ParallelFor (primeOf L ω) items.enum with
  | none => none
  | some primes =>
    match expLoop key.Totient primes 1 with
    | none => none
    | some exp =>
      let acc := Exp base exp.toNat key.N
      match ParallelFor (witnessOf key exp) primes with
      | none => none
      | some witnesses => some (acc, witnesses)

/-- The method `PublicKey.Verify`; `ω` is the outside input of the `rand.Prime` call that its
`HashToPrime(item)` makes. -/
def Verify {H Ω : Type} (L : Sha3Rand H Ω) (key : PublicKey) (ω : Ω) (acc witness : Int)
    (item : Bytes) : Option Bool :=
  match HashToPrime L ω item with
  | none => none
  | some c =>
    let v := Exp witness c key.N
    some (decide (acc = v))

/-! ## A small instance, used to evaluate the definitions -/

/-- A stand-in for the hash library on small numbers. The sponge state is the data absorbed
so far, and the prime search answers with a prime chosen by the number of
bytes absorbed; when the outside input of the call is `true` the search
starts one byte further, as `crypto/rand` does when it reads a byte off the
reader first. The search fails beyond five bytes. -/
def toyLib : Sha3Rand Bytes Bool where
  NewShake256 := []
  Write := fun h data => h ++ data
  Prime := fun ω h _ =>
    match h.length + (if ω then 1 else 0) with
    | 0 => .ok 5
    | 1 => .ok 7
    | 2 => .ok 11
    | 3 => .ok 13
    | 4 => .ok 3
    | 5 => .ok 2
    | _ => .error "short read"

/-- An execution in which no call of `rand.Prime` reads the extra byte. -/
def plain : Nat → Bool := fun _ => false

/-- An execution in which every call of `rand.Prime` reads the extra byte. -/
def skipping : Nat → Bool := fun _ => true

/-- An execution in which only the call made for slot `3` reads the extra byte. -/
def skipAtThree : Nat → Bool := fun i => decide (i = 3)

/-- The key with `P = 5`, `Q = 7`. -/
def toyKey : PrivateKey := { P := 5, Q := 7, N := 35, Totient := 24 }

/-- The data-model invariant of a private key: `P` and `Q` are distinct (positive)
primes, `N = P*Q` and `Totient = (P-1)*(Q-1)`. -/
def WellFormed (key : PrivateKey) : Prop :=
  key.P.toNat.Prime ∧ key.Q.toNat.Prime ∧ key.P ≠ key.Q ∧
    key.N = key.P * key.Q ∧ key.Totient = (key.P - 1) * (key.Q - 1)

instance WellFormed.decidable (key : PrivateKey) : Decidable (WellFormed key) := by
  unfold WellFormed
  exact inferInstance

/-! ## Key generation -/

/-- The reader `random` of `GenerateKey`, seen through the calls `rand.Prime(random, bits)`
made on it, taken as a parameter: `Prime k bits` is what call number `k` on the
reader (counting from 0) returns, a value or an error. The value is built from
bytes read from the reader, so it is a natural number. -/
structure PrimeSource where
  Prime : Nat → Nat → Except String Nat

/-- The method `(*big.Int).GCD(nil, nil, a, b)`: the greatest common divisor, never negative. -/
def GCD (a b : Int) : Int :=
  (Int.gcd a b : Int)

/-- What `GenerateKey` returns: `(*PublicKey, *PrivateKey, error)`, with `nil` as `none`. -/
abbrev KeyResult := Option PublicKey × Option PrivateKey × Option String

/-- One pass through the body of the `for` loop of `GenerateKey`, the reader being at its
call number `pos`: `some r` when the pass returns `r`, `none` when it reaches
the end of the body and the loop goes round again (two draws later). -/
def generateKeyBody (random : PrimeSource) (pos : Nat) : Option KeyResult :=
  match random.Prime pos 1024 with
  | .error err => some (none, none, some err)
  | .ok p =>
    match random.Prime (pos + 1) 1024 with
    | .error err => some (none, none, some err)
    | .ok q =>
      let pminus1 := (p : Int) - 1
      let qminus1 := (q : Int) - 1
      let totient := pminus1 * qminus1
      let g := GCD base totient
      if g = 1 then
        let privateKey : PrivateKey :=
          { P := (p : Int), Q := (q : Int), N := (p : Int) * (q : Int), Totient := totient }
        let publicKey : PublicKey := { N := privateKey.N }
        some (some publicKey, some privateKey, none)
      else none

/-- The loop `for { ... }` of `GenerateKey`, run for at most `fuel` passes from call number
`pos` of the reader; `none` when it has not returned within `fuel` passes. -/
def generateKeyLoop (random : PrimeSource) : Nat → Nat → Option KeyResult
  | 0, _ => none
  | fuel + 1, pos =>
    match generateKeyBody random pos with
    | some r => some r
    | none => generateKeyLoop random fuel (pos + 2)

/-- The function `GenerateKey`, its loop run for at most `fuel` passes. -/
def GenerateKey (random : PrimeSource) (fuel : Nat) : Option KeyResult :=
  generateKeyLoop random fuel 0

/-- Pair number `k` of the reader (its calls `2k` and `2k+1`) is accepted by `GenerateKey`:
both draws succeed and `gcd(65537, (P-1)*(Q-1)) = 1`. -/
def Accepted (random : PrimeSource) (k : Nat) : Prop :=
  ∃ p q : Nat, random.Prime (2 * k) 1024 = Except.ok p ∧
    random.Prime (2 * k + 1) 1024 = Except.ok q ∧
    Int.gcd 65537 (((p : Int) - 1) * ((q : Int) - 1)) = 1

/-- A reader whose first pair is rejected (`65537` divides `917519 - 1`), whose second pair
is `5, 7`, and which fails afterwards. -/
def toySource : PrimeSource where
  Prime := fun k _ =>
    match k with
    | 0 => .ok 917519
    | 1 => .ok 3
    | 2 => .ok 5
    | 3 => .ok 7
    | _ => .error "EOF"

/-- A reader whose first pair is rejected and which fails in the middle of the second
pair. -/
def failSource : PrimeSource where
  Prime := fun k _ =>
    match k with
    | 0 => .ok 917519
    | 1 => .ok 3
    | 2 => .ok 5
    | _ => .error "EOF"

/-- A reader that yields the prime `3` at every call. -/
def repeatSource : PrimeSource where
  Prime := fun _ _ => .ok 3

/-- A reader that never fails and yields the prime `917519 = 14 * 65537 + 1` at every
call. -/
def stuckSource : PrimeSource where
  Prime := fun _ _ => .ok 917519

/-- A reader that never fails: its first draw is `917519`, and afterwards it yields `5` at
even calls and `7` at odd calls. -/
def slowSource : PrimeSource where
  Prime := fun k _ => if k = 0 then .ok 917519 else if k % 2 = 0 then .ok 5 else .ok 7

/-- The key with `P = 917519`, `Q = 2`: `65537` divides its `Totient = 917518`. -/
def oddKey : PrivateKey := { P := 917519, Q := 2, N := 1835038, Totient := 917518 }

/-! ## Lemmas on the library operations -/

theorem Mod_eq_some {x y r : Int} : Mod x y = some r ↔ y ≠ 0 ∧ r = x % y := by
  unfold Mod
  split <;> simp_all [eq_comm]

theorem ParallelFor_eq_some_iff {α β : Type} (body : α → Option β) (xs : List α) (ys : List β) :
    ParallelFor body xs = some ys ↔ List.Forall₂ (fun x y => body x = some y) xs ys := by
  induction xs generalizing ys with
  | nil =>
    cases ys <;> simp [ParallelFor]
  | cons x xs ih =>
    cases ys with
    | nil =>
      simp only [ParallelFor]
      split <;> simp_all
    | cons y ys =>
      simp only [ParallelFor, List.forall₂_cons]
      cases hx : body x with
      | none => simp
      | some y1 =>
        cases hxs : ParallelFor body xs with
        | none =>
          constructor
          · intro h
            exact absurd h (by simp)
          · rintro ⟨_, h⟩
            rw [(ih ys).2 h] at hxs
            exact absurd hxs (by simp)
        | some ys1 =>
          have h1 := (ih ys1).1 hxs
          simp only [Option.some.injEq, List.cons.injEq]
          constructor
          · rintro ⟨rfl, rfl⟩
            exact ⟨rfl, h1⟩
          · rintro ⟨rfl, h2⟩
            refine ⟨rfl, ?_⟩
            have := (ih ys).2 h2
            rw [hxs] at this
            exact Option.some.inj this

theorem ParallelFor_length {α β : Type} {body : α → Option β} {xs : List α} {ys : List β}
    (h : ParallelFor body xs = some ys) : ys.length = xs.length :=
  (((ParallelFor_eq_some_iff body xs ys).1 h).length_eq).symm

theorem ParallelFor_get {α β : Type} {body : α → Option β} {xs : List α} {ys : List β}
    (h : ParallelFor body xs = some ys) (i : Nat) (hx : i < xs.length) (hy : i < ys.length) :
    body (xs.get ⟨i, hx⟩) = some (ys.get ⟨i, hy⟩) :=
  (List.forall₂_iff_get.1 ((ParallelFor_eq_some_iff body xs ys).1 h)).2 i hx hy

theorem ParallelFor_mem {α β : Type} {body : α → Option β} {xs : List α} {ys : List β}
    (h : ParallelFor body xs = some ys) : ∀ x ∈ xs, ∃ y, body x = some y := by
  rw [ParallelFor_eq_some_iff] at h
  induction h with
  | nil => simp
  | cons hab _ ih =>
    intro x hx
    rcases List.mem_cons.1 hx with rfl | hx
    · exact ⟨_, hab⟩
    · exact ih x hx

theorem ParallelFor_exists {α β : Type} {body : α → Option β} {xs : List α}
    (h : ∀ x ∈ xs, ∃ y, body x = some y) : ∃ ys, ParallelFor body xs = some ys := by
  induction xs with
  | nil => exact ⟨[], rfl⟩
  | cons x xs ih =>
    obtain ⟨y, hy⟩ := h x (List.mem_cons_self x xs)
    obtain ⟨ys, hys⟩ := ih (fun z hz => h z (List.mem_cons_of_mem x hz))
    exact ⟨y :: ys, by simp [ParallelFor, hy, hys]⟩

theorem ParallelFor_eq_some_iff_map {α β : Type} (body : α → Option β) (xs : List α)
    (ys : List β) : ParallelFor body xs = some ys ↔ xs.map body = ys.map some := by
  rw [ParallelFor_eq_some_iff]
  induction xs generalizing ys with
  | nil => cases ys <;> simp
  | cons x xs ih => cases ys <;> simp [ih]

theorem ParallelFor_singleton {α β : Type} {body : α → Option β} {x : α} {ys : List β}
    (h : ParallelFor body [x] = some ys) : ∃ y, body x = some y ∧ ys = [y] := by
  rw [ParallelFor_eq_some_iff] at h
  cases h with
  | cons hx hrest =>
    cases hrest
    exact ⟨_, hx, rfl⟩

theorem ModInverse_spec {g n z : Int} (h : ModInverse g n = some z) :
    Int.gcd g n = 1 ∧ 0 ≤ z ∧ (n ≠ 0 → z < |n|) ∧ g * z % n = 1 % n := by
  unfold ModInverse at h
  split_ifs at h with h0 hg1 h1
  · simp only [Option.some.injEq] at h
    subst h0 hg1 h
    exact ⟨by decide, by decide, fun hn => absurd rfl hn, rfl⟩
  · simp only [Option.map_eq_some'] at h
    obtain ⟨k, hk, rfl⟩ := h
    have hmem := List.mem_of_find?_eq_some hk
    have hprop := List.find?_some hk
    simp only [List.mem_range] at hmem
    simp only [decide_eq_true_eq] at hprop
    refine ⟨not_not.1 h1, Int.natCast_nonneg k, fun _ => ?_, hprop⟩
    rw [Int.abs_eq_natAbs]
    exact Int.ofNat_lt.2 hmem

theorem expLoop_eq {T : Int} (hT : T ≠ 0) (ps : List Nat) (e : Int) :
    expLoop T ps e = some (if ps = [] then e else (e * ((ps.prod : Nat) : Int)) % T) := by
  induction ps generalizing e with
  | nil => simp [expLoop]
  | cons p ps ih =>
    simp only [expLoop, Mod, if_neg hT, ih]
    by_cases hps : ps = []
    · subst hps
      simp
    · simp only [if_neg hps, reduceCtorEq, if_false, List.prod_cons, Nat.cast_mul,
        Option.some.injEq]
      rw [Int.mul_emod, Int.emod_emod, ← Int.mul_emod, mul_assoc]

theorem expLoop_zero {ps : List Nat} (hps : ps ≠ []) (e : Int) : expLoop 0 ps e = none := by
  cases ps with
  | nil => exact absurd rfl hps
  | cons p ps => simp [expLoop, Mod]

theorem expLoop_nonneg {T : Int} {ps : List Nat} {e r : Int} (he : 0 ≤ e)
    (h : expLoop T ps e = some r) : 0 ≤ r := by
  by_cases hT : T = 0
  · subst hT
    cases ps with
    | nil =>
      simp only [expLoop, Option.some.injEq] at h
      exact h ▸ he
    | cons p ps => simp [expLoop, Mod] at h
  · rw [expLoop_eq hT] at h
    simp only [Option.some.injEq] at h
    subst h
    split_ifs
    · exact he
    · exact Int.emod_nonneg _ hT

/-- The aggregate exponent of a returning `Accumulate`. -/
theorem expLoop_eq_some {T : Int} {ps : List Nat} {e : Int} (h : expLoop T ps 1 = some e) :
    e = if ps = [] then 1 else ((ps.prod : Nat) : Int) % T := by
  by_cases hT : T = 0
  · subst hT
    by_cases hps : ps = []
    · subst hps
      simpa [expLoop, eq_comm] using h
    · rw [expLoop_zero hps] at h
      exact absurd h (by simp)
  · rw [expLoop_eq hT, one_mul] at h
    exact (Option.some.inj h).symm

theorem prod_eraseIdx (l : List Nat) (i : Nat) (h : i < l.length) :
    l.get ⟨i, h⟩ * (l.eraseIdx i).prod = l.prod := by
  induction l generalizing i with
  | nil => simp at h
  | cons a l ih =>
    cases i with
    | zero => simp
    | succ i =>
      have hi : i < l.length := by simpa using h
      have := ih i hi
      simp only [List.get_eq_getElem, List.getElem_cons_succ, List.eraseIdx_cons_succ,
        List.prod_cons] at this ⊢
      rw [← this]
      ring

theorem witnessOf_eq_some {key : PrivateKey} {exp : Int} {prime : Nat} {w : Int} :
    witnessOf key exp prime = some w ↔
      key.Totient ≠ 0 ∧ ∃ inv, ModInverse (prime : Int) key.Totient = some inv ∧
        w = Exp base (exp * inv % key.Totient).toNat key.N := by
  unfold witnessOf
  cases hinv : ModInverse (prime : Int) key.Totient with
  | none => simp
  | some inv =>
    by_cases h0 : key.Totient = 0
    · simp [Mod, h0]
    · simp [Mod, h0, eq_comm]

theorem Accumulate_eq_some_iff {H Ω : Type} (L : Sha3Rand H Ω) (key : PrivateKey)
    (ω : Nat → Ω) (items : List Bytes) (acc : Int) (ws : List Int) :
    Accumulate L key ω items = some (acc, ws) ↔
      ∃ primes exp, ParallelFor (primeOf L ω) items.enum = some primes ∧
        expLoop key.Totient primes 1 = some exp ∧ acc = Exp base exp.toNat key.N ∧
        ParallelFor (witnessOf key exp) primes = some ws := by
  unfold Accumulate
  cases h1 : ParallelFor (primeOf L ω) items.enum with
  | none => simp
  | some primes =>
    cases h2 : expLoop key.Totient primes 1 with
    | none => simp [h2]
    | some exp =>
      cases h3 : ParallelFor (witnessOf key exp) primes with
      | none => simp [h2, h3]
      | some witnesses =>
        simp only [h2, h3, Option.some.injEq, Prod.mk.injEq, exists_and_left, exists_eq_left']
        constructor
        · rintro ⟨rfl, rfl⟩
          exact ⟨rfl, rfl⟩
        · rintro ⟨rfl, rfl⟩
          exact ⟨rfl, rfl⟩

/-! ## Euler's theorem for the modulus of a well-formed key -/

theorem pow_congr_totient {p q b : Nat} (hp : p.Prime) (hq : q.Prime) (hpq : p ≠ q)
    (hb : Nat.Coprime b (p * q)) {a c : Nat} (h : a ≡ c [MOD (p - 1) * (q - 1)]) :
    b ^ a ≡ b ^ c [MOD p * q] := by
  have hphi : Nat.totient (p * q) = (p - 1) * (q - 1) := by
    rw [Nat.totient_mul ((Nat.coprime_primes hp hq).2 hpq), Nat.totient_prime hp,
      Nat.totient_prime hq]
  have h1 : b ^ ((p - 1) * (q - 1)) ≡ 1 [MOD p * q] := hphi ▸ Nat.ModEq.pow_totient hb
  have red : ∀ n : Nat, b ^ n ≡ b ^ (n % ((p - 1) * (q - 1))) [MOD p * q] := by
    intro n
    have hsplit : b ^ n
        = (b ^ ((p - 1) * (q - 1))) ^ (n / ((p - 1) * (q - 1))) * b ^ (n % ((p - 1) * (q - 1))) := by
      rw [← pow_mul, ← pow_add, Nat.div_add_mod]
    rw [hsplit]
    have h2 := (h1.pow (n / ((p - 1) * (q - 1)))).mul_right (b ^ (n % ((p - 1) * (q - 1))))
    simpa using h2
  have hac : a % ((p - 1) * (q - 1)) = c % ((p - 1) * (q - 1)) := h
  exact (red a).trans (hac ▸ (red c).symm)

theorem WellFormed.exists_primes {key : PrivateKey} (hk : WellFormed key) :
    ∃ p q : Nat, p.Prime ∧ q.Prime ∧ p ≠ q ∧ key.P = (p : Int) ∧ key.Q = (q : Int) ∧
      key.N = ((p * q : Nat) : Int) ∧ key.Totient = (((p - 1) * (q - 1) : Nat) : Int) := by
  obtain ⟨hp, hq, hne, hN, hT⟩ := hk
  have hP0 : 0 ≤ key.P := by
    by_contra hneg
    rw [Int.toNat_of_nonpos (le_of_lt (not_le.1 hneg))] at hp
    exact Nat.not_prime_zero hp
  have hQ0 : 0 ≤ key.Q := by
    by_contra hneg
    rw [Int.toNat_of_nonpos (le_of_lt (not_le.1 hneg))] at hq
    exact Nat.not_prime_zero hq
  have hP : key.P = (key.P.toNat : Int) := (Int.toNat_of_nonneg hP0).symm
  have hQ : key.Q = (key.Q.toNat : Int) := (Int.toNat_of_nonneg hQ0).symm
  refine ⟨key.P.toNat, key.Q.toNat, hp, hq, ?_, hP, hQ, ?_, ?_⟩
  · intro h
    apply hne
    rw [hP, hQ, h]
  · rw [hN]
    push_cast
    rw [← hP, ← hQ]
  · rw [hT]
    push_cast [Nat.cast_sub hp.one_le, Nat.cast_sub hq.one_le]
    rw [← hP, ← hQ]

theorem Exp_base_congr {key : PrivateKey} (hk : WellFormed key) (hb : Int.gcd base key.N = 1)
    {a b : Int} (ha : 0 ≤ a) (hb0 : 0 ≤ b) (h : a ≡ b [ZMOD key.Totient]) :
    Exp base a.toNat key.N = Exp base b.toNat key.N := by
  obtain ⟨p, q, hp, hq, hpq, -, -, hN, hT⟩ := hk.exists_primes
  have hcop : Nat.Coprime 65537 (p * q) := by
    have h1 := hb
    rw [hN] at h1
    exact h1
  have hmodZ : ((a.toNat : Nat) : Int) ≡ ((b.toNat : Nat) : Int)
      [ZMOD (((p - 1) * (q - 1) : Nat) : Int)] := by
    rw [← hT, Int.toNat_of_nonneg ha, Int.toNat_of_nonneg hb0]
    exact h
  have hpow := pow_congr_totient hp hq hpq hcop (Int.natCast_modEq_iff.1 hmodZ)
  have hpowZ := Int.natCast_modEq_iff.2 hpow
  unfold Exp
  rw [hN]
  simpa [base] using hpowZ

theorem WellFormed.totient_pos {key : PrivateKey} (hk : WellFormed key) : 0 < key.Totient := by
  obtain ⟨p, q, hp, hq, -, -, -, -, hT⟩ := hk.exists_primes
  rw [hT]
  exact_mod_cast Nat.mul_pos (Nat.sub_pos_of_lt hp.one_lt) (Nat.sub_pos_of_lt hq.one_lt)

theorem Exp_Exp (x : Int) (a c : Nat) (m : Int) :
    Exp (Exp x a m) c m = x ^ (a * c) % m := by
  unfold Exp
  rw [pow_mul]
  exact (Int.mod_modEq _ _).pow c

/-- Raising a witness to the prime it was computed from gives the accumulator value. -/
theorem verify_core {key : PrivateKey} (hk : WellFormed key) (hb : Int.gcd base key.N = 1)
    {exp inv : Int} {c : Nat} (hexp : 0 ≤ exp)
    (hinv : (c : Int) * inv % key.Totient = 1 % key.Totient) :
    Exp (Exp base (exp * inv % key.Totient).toNat key.N) c key.N
      = Exp base exp.toNat key.N := by
  have hT0 : key.Totient ≠ 0 := hk.totient_pos.ne'
  have hnn : 0 ≤ exp * inv % key.Totient := Int.emod_nonneg _ hT0
  have h1 : exp * inv % key.Totient ≡ exp * inv [ZMOD key.Totient] := Int.mod_modEq _ _
  have h2 : (c : Int) * inv ≡ 1 [ZMOD key.Totient] := hinv
  have hmod : exp * inv % key.Totient * (c : Int) ≡ exp [ZMOD key.Totient] :=
    calc exp * inv % key.Totient * (c : Int) ≡ exp * inv * (c : Int) [ZMOD key.Totient] :=
          h1.mul_right _
      _ = exp * ((c : Int) * inv) := by ring
      _ ≡ exp * 1 [ZMOD key.Totient] := h2.mul_left _
      _ = exp := mul_one _
  have h3 := Exp_base_congr hk hb (mul_nonneg hnn (Int.natCast_nonneg c)) hexp hmod
  rw [Exp_Exp, ← h3]
  unfold Exp
  congr 2
  apply Int.natCast_inj.1
  rw [Nat.cast_mul, Int.toNat_of_nonneg hnn,
    Int.toNat_of_nonneg (mul_nonneg hnn (Int.natCast_nonneg c))]

/-! ## What one execution of `Accumulate` computes -/

/-- What a returning `Accumulate` computed, slot by slot: the prime of slot `i` is the one
that the call `HashToPrime(items[i])` of this execution returned. -/
theorem Accumulate_index {H Ω : Type} {L : Sha3Rand H Ω} {key : PrivateKey} {ω : Nat → Ω}
    {items : List Bytes} {acc : Int} {ws : List Int}
    (hacc : Accumulate L key ω items = some (acc, ws)) :
    ∃ primes exp, ParallelFor (primeOf L ω) items.enum = some primes ∧
      expLoop key.Totient primes 1 = some exp ∧ 0 ≤ exp ∧ acc = Exp base exp.toNat key.N ∧
      ws.length = items.length ∧
      ∀ i (hi : i < items.length) (hw : i < ws.length),
        ∃ c, HashToPrime L (ω i) (items.get ⟨i, hi⟩) = some c ∧ primes[i]? = some c ∧
          witnessOf key exp c = some (ws.get ⟨i, hw⟩) := by
  obtain ⟨primes, exp, h1, h2, h3, h4⟩ := (Accumulate_eq_some_iff L key ω items acc ws).1 hacc
  have hl1 : primes.length = items.length := by
    rw [ParallelFor_length h1, List.enum_length]
  have hl2 := ParallelFor_length h4
  refine ⟨primes, exp, h1, h2, expLoop_nonneg (by norm_num) h2, h3, hl2.trans hl1, ?_⟩
  intro i hi hw
  have hp : i < primes.length := hl1 ▸ hi
  have he : i < items.enum.length := by
    rw [List.enum_length]
    exact hi
  have hslot := ParallelFor_get h1 i he hp
  have hget : items.enum.get ⟨i, he⟩ = (i, items.get ⟨i, hi⟩) := by
    simp [List.getElem_enum]
  rw [hget] at hslot
  refine ⟨primes.get ⟨i, hp⟩, hslot, ?_, ParallelFor_get h4 i hp hw⟩
  simp

/-- The primes of an execution, slot by slot. -/
theorem primes_get {H Ω : Type} {L : Sha3Rand H Ω} {ω : Nat → Ω} {items : List Bytes}
    {primes : List Nat} (h : ParallelFor (primeOf L ω) items.enum = some primes) :
    primes.length = items.length ∧
      ∀ i (hi : i < items.length) (hp : i < primes.length),
        HashToPrime L (ω i) (items.get ⟨i, hi⟩) = some (primes.get ⟨i, hp⟩) := by
  have hl1 : primes.length = items.length := by
    rw [ParallelFor_length h, List.enum_length]
  refine ⟨hl1, ?_⟩
  intro i hi hp
  have he : i < items.enum.length := by
    rw [List.enum_length]
    exact hi
  have hslot := ParallelFor_get h i he hp
  have hget : items.enum.get ⟨i, he⟩ = (i, items.get ⟨i, hi⟩) := by
    simp [List.getElem_enum]
  rw [hget] at hslot
  exact hslot

/-- The inverse exists for a non-zero modulus relatively prime to `g`. -/
theorem ModInverse_exists {g n : Int} (hn : n ≠ 0) (hg : Int.gcd g n = 1) :
    ∃ z, ModInverse g n = some z := by
  have hbez : g * Int.gcdA g n + n * Int.gcdB g n = 1 := by
    have h := Int.gcd_eq_gcd_ab g n
    rw [hg] at h
    exact_mod_cast h.symm
  have hz0 : 0 ≤ Int.gcdA g n % n := Int.emod_nonneg _ hn
  have hzlt : Int.gcdA g n % n < |n| := Int.emod_lt _ hn
  have hmod : g * (Int.gcdA g n % n) ≡ 1 [ZMOD n] :=
    calc g * (Int.gcdA g n % n) ≡ g * Int.gcdA g n [ZMOD n] := (Int.mod_modEq _ _).mul_left _
      _ ≡ g * Int.gcdA g n + n * Int.gcdB g n [ZMOD n] := by
          have h0 : n * Int.gcdB g n ≡ 0 [ZMOD n] :=
            (Int.modEq_zero_iff_dvd).2 (dvd_mul_right _ _)
          simpa using (Int.ModEq.refl (g * Int.gcdA g n)).add h0.symm
      _ = 1 := hbez
  have hsome : ((List.range n.natAbs).find?
      (fun (z : Nat) => decide (g * (z : Int) % n = 1 % n))).isSome := by
    rw [List.find?_isSome]
    refine ⟨(Int.gcdA g n % n).toNat, ?_, ?_⟩
    · rw [List.mem_range]
      apply Int.ofNat_lt.1
      rw [Int.toNat_of_nonneg hz0, Int.natCast_natAbs]
      exact hzlt
    · rw [decide_eq_true_eq, Int.toNat_of_nonneg hz0]
      exact hmod
  obtain ⟨k, hk⟩ := Option.isSome_iff_exists.1 hsome
  exact ⟨Int.ofNat k, by simp [ModInverse, hn, hg, hk]⟩

theorem witnessOf_exists_iff {key : PrivateKey} {exp : Int} {prime : Nat} :
    (∃ w, witnessOf key exp prime = some w) ↔
      key.Totient ≠ 0 ∧ Int.gcd (prime : Int) key.Totient = 1 := by
  constructor
  · rintro ⟨w, hw⟩
    obtain ⟨h0, inv, hinv, -⟩ := witnessOf_eq_some.1 hw
    exact ⟨h0, (ModInverse_spec hinv).1⟩
  · rintro ⟨h0, h1⟩
    obtain ⟨inv, hinv⟩ := ModInverse_exists h0 h1
    exact ⟨_, witnessOf_eq_some.2 ⟨h0, inv, hinv, rfl⟩⟩

/-- When `Accumulate` returns: every slot has a prime, and for a non-empty batch the totient
is not zero and every prime is invertible modulo the totient. -/
theorem Accumulate_returns_iff {H Ω : Type} (L : Sha3Rand H Ω) (key : PrivateKey)
    (ω : Nat → Ω) (items : List Bytes) :
    (∃ r, Accumulate L key ω items = some r) ↔
      ∃ primes, ParallelFor (primeOf L ω) items.enum = some primes ∧
        (primes = [] ∨ (key.Totient ≠ 0 ∧
          ∀ p ∈ primes, Int.gcd ((p : Nat) : Int) key.Totient = 1)) := by
  constructor
  · rintro ⟨⟨acc, ws⟩, hacc⟩
    obtain ⟨primes, exp, h1, h2, -, h4⟩ := (Accumulate_eq_some_iff L key ω items acc ws).1 hacc
    refine ⟨primes, h1, ?_⟩
    by_cases hps : primes = []
    · exact Or.inl hps
    · right
      have hT : key.Totient ≠ 0 := by
        intro h0
        rw [h0, expLoop_zero hps] at h2
        exact absurd h2 (by simp)
      exact ⟨hT, fun p hp => (witnessOf_exists_iff.1 (ParallelFor_mem h4 p hp)).2⟩
  · rintro ⟨primes, h1, hcase⟩
    have hexp : ∃ exp, expLoop key.Totient primes 1 = some exp := by
      rcases hcase with hnil | ⟨hT, -⟩
      · exact ⟨1, by rw [hnil]; rfl⟩
      · exact ⟨_, expLoop_eq hT primes 1⟩
    obtain ⟨exp, h2⟩ := hexp
    have hws : ∃ ws, ParallelFor (witnessOf key exp) primes = some ws := by
      apply ParallelFor_exists
      intro p hp
      rcases hcase with hnil | ⟨hT, hall⟩
      · rw [hnil] at hp
        simp at hp
      · exact witnessOf_exists_iff.2 ⟨hT, hall p hp⟩
    obtain ⟨ws, h4⟩ := hws
    exact ⟨(Exp base exp.toNat key.N, ws),
      (Accumulate_eq_some_iff L key ω items _ ws).2 ⟨primes, exp, h1, h2, rfl, h4⟩⟩

/-- The inverse is determined by its defining congruence and its range. -/
theorem ModInverse_eq_of {g n z : Int} (hn : n ≠ 0) (hg : Int.gcd g n = 1) (hz0 : 0 ≤ z)
    (hz : z < |n|) (h : g * z % n = 1 % n) : ModInverse g n = some z := by
  obtain ⟨z1, hz1⟩ := ModInverse_exists hn hg
  obtain ⟨-, h0, hlt, hmod⟩ := ModInverse_spec hz1
  have hlt1 := hlt hn
  have e1 : g * z ≡ 1 [ZMOD n] := h
  have e2 : g * z1 ≡ 1 [ZMOD n] := hmod
  have e3 : z ≡ z1 [ZMOD n] :=
    calc z = z * 1 := (mul_one z).symm
      _ ≡ z * (g * z1) [ZMOD n] := e2.symm.mul_left z
      _ = g * z * z1 := by ring
      _ ≡ 1 * z1 [ZMOD n] := e1.mul_right z1
      _ = z1 := one_mul z1
  have hdvd : |n| ∣ z1 - z := (abs_dvd n _).2 e3.dvd
  have habs : |z1 - z| < |n| := by
    rw [abs_lt]
    constructor <;> linarith
  have hzero := Int.eq_zero_of_abs_lt_dvd hdvd habs
  have hzz : z1 = z := by linarith
  rw [hz1, hzz]

theorem base_coprime_of_ne {key : PrivateKey} (hk : WellFormed key) (hP : key.P ≠ 65537)
    (hQ : key.Q ≠ 65537) : Int.gcd base key.N = 1 := by
  obtain ⟨p, q, hp, hq, -, hPp, hQq, hN, -⟩ := hk.exists_primes
  have h65537 : Nat.Prime 65537 := by norm_num
  have hp1 : (65537 : Nat) ≠ p := by
    intro h
    apply hP
    rw [hPp, ← h]
    rfl
  have hq1 : (65537 : Nat) ≠ q := by
    intro h
    apply hQ
    rw [hQq, ← h]
    rfl
  have hcop : Nat.Coprime 65537 (p * q) :=
    Nat.Coprime.mul_right ((Nat.coprime_primes h65537 hp).2 hp1)
      ((Nat.coprime_primes h65537 hq).2 hq1)
  rw [hN]
  exact hcop

/-! ## Lemmas on key generation -/

theorem GCD_base_eq_one (t : Int) : GCD base t = 1 ↔ Int.gcd 65537 t = 1 := by
  unfold GCD base
  exact Nat.cast_eq_one

theorem generateKeyBody_eq_none_iff (random : PrimeSource) (pos : Nat) :
    generateKeyBody random pos = none ↔
      ∃ p q : Nat, random.Prime pos 1024 = Except.ok p ∧
        random.Prime (pos + 1) 1024 = Except.ok q ∧
        Int.gcd 65537 (((p : Int) - 1) * ((q : Int) - 1)) ≠ 1 := by
  unfold generateKeyBody
  cases hp : random.Prime pos 1024 with
  | error e => simp
  | ok p =>
    cases hq : random.Prime (pos + 1) 1024 with
    | error e => simp
    | ok q =>
      by_cases hg : Int.gcd 65537 (((p : Int) - 1) * ((q : Int) - 1)) = 1
      · simp [GCD_base_eq_one, hg]
      · simp [GCD_base_eq_one, hg]

theorem generateKeyBody_key_iff (random : PrimeSource) (pos : Nat)
    (pub : Option PublicKey) (priv : Option PrivateKey) :
    generateKeyBody random pos = some (pub, priv, none) ↔
      ∃ p q : Nat, random.Prime pos 1024 = Except.ok p ∧
        random.Prime (pos + 1) 1024 = Except.ok q ∧
        Int.gcd 65537 (((p : Int) - 1) * ((q : Int) - 1)) = 1 ∧
        pub = some { N := (p : Int) * (q : Int) } ∧
        priv = some { P := (p : Int), Q := (q : Int), N := (p : Int) * (q : Int),
                      Totient := ((p : Int) - 1) * ((q : Int) - 1) } := by
  unfold generateKeyBody
  cases hp : random.Prime pos 1024 with
  | error e => simp
  | ok p =>
    cases hq : random.Prime (pos + 1) 1024 with
    | error e => simp
    | ok q =>
      by_cases hg : Int.gcd 65537 (((p : Int) - 1) * ((q : Int) - 1)) = 1
      · simp only [GCD_base_eq_one, hg, if_true, Option.some.injEq, Prod.mk.injEq, and_true,
          Except.ok.injEq, true_and, exists_and_left, exists_eq_left']
        constructor
        · rintro ⟨rfl, rfl⟩
          exact ⟨rfl, rfl⟩
        · rintro ⟨rfl, rfl⟩
          exact ⟨rfl, rfl⟩
      · simp [GCD_base_eq_one, hg]

theorem generateKeyBody_error_iff (random : PrimeSource) (pos : Nat)
    (pub : Option PublicKey) (priv : Option PrivateKey) (e : String) :
    generateKeyBody random pos = some (pub, priv, some e) ↔
      pub = none ∧ priv = none ∧
        (random.Prime pos 1024 = Except.error e ∨
          ∃ p : Nat, random.Prime pos 1024 = Except.ok p ∧
            random.Prime (pos + 1) 1024 = Except.error e) := by
  unfold generateKeyBody
  cases hp : random.Prime pos 1024 with
  | error e1 =>
    simp only [Option.some.injEq, Prod.mk.injEq, Except.error.injEq, reduceCtorEq, false_and,
      exists_false, or_false]
    constructor
    · rintro ⟨rfl, rfl, rfl⟩
      exact ⟨rfl, rfl, rfl⟩
    · rintro ⟨rfl, rfl, rfl⟩
      exact ⟨rfl, rfl, rfl⟩
  | ok p =>
    cases hq : random.Prime (pos + 1) 1024 with
    | error e1 =>
      simp only [Option.some.injEq, Prod.mk.injEq, reduceCtorEq, Except.ok.injEq,
        Except.error.injEq, exists_eq_left', false_or]
      constructor
      · rintro ⟨rfl, rfl, rfl⟩
        exact ⟨rfl, rfl, rfl⟩
      · rintro ⟨rfl, rfl, rfl⟩
        exact ⟨rfl, rfl, rfl⟩
    | ok q =>
      by_cases hg : Int.gcd 65537 (((p : Int) - 1) * ((q : Int) - 1)) = 1
      · simp [GCD_base_eq_one, hg]
      · simp [GCD_base_eq_one, hg]

/-- The loop returns `r` exactly when some pass within the fuel returns `r` and every
earlier pass went round. -/
theorem generateKeyLoop_eq_some_iff (random : PrimeSource) (fuel pos : Nat) (r : KeyResult) :
    generateKeyLoop random fuel pos = some r ↔
      ∃ j, j < fuel ∧ (∀ i, i < j → generateKeyBody random (pos + 2 * i) = none) ∧
        generateKeyBody random (pos + 2 * j) = some r := by
  induction fuel generalizing pos with
  | zero => simp [generateKeyLoop]
  | succ fuel ih =>
    unfold generateKeyLoop
    cases hb : generateKeyBody random pos with
    | some r1 =>
      simp only [Option.some.injEq]
      constructor
      · rintro rfl
        exact ⟨0, Nat.succ_pos _, fun i hi => absurd hi (Nat.not_lt_zero i), by simpa using hb⟩
      · rintro ⟨j, -, hall, hj⟩
        cases j with
        | zero =>
          rw [Nat.mul_zero, Nat.add_zero, hb] at hj
          exact Option.some.inj hj
        | succ j =>
          have := hall 0 (Nat.succ_pos _)
          rw [Nat.mul_zero, Nat.add_zero, hb] at this
          exact absurd this (by simp)
    | none =>
      simp only [ih]
      constructor
      · rintro ⟨j, hj, hall, hret⟩
        refine ⟨j + 1, Nat.succ_lt_succ hj, ?_, ?_⟩
        · intro i hi
          cases i with
          | zero => simpa using hb
          | succ i =>
            have := hall i (Nat.lt_of_succ_lt_succ hi)
            rw [show pos + 2 * (i + 1) = pos + 2 + 2 * i by ring]
            exact this
        · rw [show pos + 2 * (j + 1) = pos + 2 + 2 * j by ring]
          exact hret
      · rintro ⟨j, hj, hall, hret⟩
        cases j with
        | zero =>
          rw [Nat.mul_zero, Nat.add_zero, hb] at hret
          exact absurd hret (by simp)
        | succ j =>
          refine ⟨j, Nat.lt_of_succ_lt_succ hj, ?_, ?_⟩
          · intro i hi
            have := hall (i + 1) (Nat.succ_lt_succ hi)
            rw [show pos + 2 * (i + 1) = pos + 2 + 2 * i by ring] at this
            exact this
          · rw [show pos + 2 * (j + 1) = pos + 2 + 2 * j by ring] at hret
            exact hret

theorem GenerateKey_eq_some_iff (random : PrimeSource) (fuel : Nat) (r : KeyResult) :
    GenerateKey random fuel = some r ↔
      ∃ j, j < fuel ∧ (∀ i, i < j → generateKeyBody random (2 * i) = none) ∧
        generateKeyBody random (2 * j) = some r := by
  unfold GenerateKey
  rw [generateKeyLoop_eq_some_iff]
  simp only [Nat.zero_add]

theorem generateKeyBody_none_not_accepted {random : PrimeSource} {k : Nat}
    (h : generateKeyBody random (2 * k) = none) : ¬ Accepted random k := by
  obtain ⟨p, q, hp, hq, hg⟩ := (generateKeyBody_eq_none_iff random (2 * k)).1 h
  rintro ⟨p1, q1, hp1, hq1, hg1⟩
  rw [hp] at hp1
  rw [hq] at hq1
  cases hp1
  cases hq1
  exact hg hg1

theorem generateKeyBody_of_not_accepted {random : PrimeSource} {k : Nat}
    (h0 : ∃ v, random.Prime (2 * k) 1024 = Except.ok v)
    (h1 : ∃ v, random.Prime (2 * k + 1) 1024 = Except.ok v)
    (h : ¬ Accepted random k) : generateKeyBody random (2 * k) = none := by
  obtain ⟨p, hp⟩ := h0
  obtain ⟨q, hq⟩ := h1
  refine (generateKeyBody_eq_none_iff random (2 * k)).2 ⟨p, q, hp, hq, ?_⟩
  intro hg
  exact h ⟨p, q, hp, hq, hg⟩

theorem generateKeyBody_stuckSource (pos : Nat) : generateKeyBody stuckSource pos = none :=
  (generateKeyBody_eq_none_iff stuckSource pos).2 ⟨917519, 917519, rfl, rfl, by decide⟩

theorem GenerateKey_stuckSource (fuel : Nat) : GenerateKey stuckSource fuel = none := by
  cases h : GenerateKey stuckSource fuel with
  | none => rfl
  | some r =>
    obtain ⟨j, -, -, hj⟩ := (GenerateKey_eq_some_iff stuckSource fuel r).1 h
    rw [generateKeyBody_stuckSource] at hj
    exact absurd hj (by simp)

/-! ## What holds within one execution -/

/-- Within one execution, the witness of slot `i` is `65537` raised to the product of the
other primes of that execution. -/
theorem witness_eq_product_without {H Ω : Type} (L : Sha3Rand H Ω) (key : PrivateKey)
    (ω : Nat → Ω) (items : List Bytes) (acc : Int) (ws : List Int)
    (hacc : Accumulate L key ω items = some (acc, ws))
    (i : Nat) (hi : i < items.length) (hw : i < ws.length) :
    ∃ primes : List Nat, items.enum.map (primeOf L ω) = primes.map some ∧
      ws.get ⟨i, hw⟩
        = 65537 ^ ((((primes.eraseIdx i).prod : Nat) : Int) % key.Totient).toNat % key.N := by
  obtain ⟨primes, exp, h1, h2, h3, h4⟩ := (Accumulate_eq_some_iff L key ω items acc ws).1 hacc
  have hp : i < primes.length := by
    rw [(primes_get h1).1]
    exact hi
  have hpne : primes ≠ [] := by
    intro h
    rw [h] at hp
    simp at hp
  obtain ⟨-, inv, hinv, hwi⟩ := witnessOf_eq_some.1 (ParallelFor_get h4 i hp hw)
  have hmod : (primes.get ⟨i, hp⟩ : Int) * inv ≡ 1 [ZMOD key.Totient] :=
    (ModInverse_spec hinv).2.2.2
  have hexp := expLoop_eq_some h2
  rw [if_neg hpne] at hexp
  have hrest : exp * inv % key.Totient
      = (((primes.eraseIdx i).prod : Nat) : Int) % key.Totient := by
    have hprod : ((primes.prod : Nat) : Int)
        = (primes.get ⟨i, hp⟩ : Int) * (((primes.eraseIdx i).prod : Nat) : Int) := by
      rw [← prod_eraseIdx primes i hp, Nat.cast_mul]
    have e1 : exp ≡ ((primes.prod : Nat) : Int) [ZMOD key.Totient] := by
      rw [hexp]
      exact Int.mod_modEq _ _
    have e2 : exp * inv ≡ (((primes.eraseIdx i).prod : Nat) : Int) [ZMOD key.Totient] :=
      calc exp * inv ≡ ((primes.prod : Nat) : Int) * inv [ZMOD key.Totient] := e1.mul_right _
        _ = (((primes.eraseIdx i).prod : Nat) : Int) * ((primes.get ⟨i, hp⟩ : Int) * inv) := by
            rw [hprod]
            ring
        _ ≡ (((primes.eraseIdx i).prod : Nat) : Int) * 1 [ZMOD key.Totient] := hmod.mul_left _
        _ = (((primes.eraseIdx i).prod : Nat) : Int) := mul_one _
    exact e2
  refine ⟨primes, (ParallelFor_eq_some_iff_map _ _ _).1 h1, ?_⟩
  rw [hwi, hrest]
  rfl

/-- A witness verifies whenever the `HashToPrime` call of `Verify` returns the prime that the
`HashToPrime` call of `Accumulate` returned for that slot. -/
theorem Verify_of_same_prime {H Ω : Type} (L : Sha3Rand H Ω) (key : PrivateKey)
    (hk : WellFormed key) (hb : Int.gcd base key.N = 1) (ω : Nat → Ω) (items : List Bytes)
    (acc : Int) (ws : List Int) (hacc : Accumulate L key ω items = some (acc, ws))
    (i : Nat) (hi : i < items.length) (hw : i < ws.length) (ω1 : Ω)
    (hsame : HashToPrime L ω1 (items.get ⟨i, hi⟩) = HashToPrime L (ω i) (items.get ⟨i, hi⟩)) :
    Verify L { N := key.N } ω1 acc (ws.get ⟨i, hw⟩) (items.get ⟨i, hi⟩) = some true := by
  obtain ⟨primes, exp, -, -, hexp, hA, -, hidx⟩ := Accumulate_index hacc
  obtain ⟨c, hc, -, hwit⟩ := hidx i hi hw
  obtain ⟨-, inv, hinv, hwi⟩ := witnessOf_eq_some.1 hwit
  unfold Verify
  rw [hsame, hc, hwi, hA]
  simp only [Option.some.injEq, decide_eq_true_eq]
  exact (verify_core hk hb hexp (ModInverse_spec hinv).2.2.2).symm

/-- The same, for a key whose primes both differ from `65537`: nothing is asked of
`gcd(65537, Totient)`. -/
theorem Verify_of_same_prime_any_totient {H Ω : Type} (L : Sha3Rand H Ω) (key : PrivateKey)
    (hk : WellFormed key) (hP : key.P ≠ 65537) (hQ : key.Q ≠ 65537) (ω : Nat → Ω)
    (items : List Bytes) (acc : Int) (ws : List Int)
    (hacc : Accumulate L key ω items = some (acc, ws))
    (i : Nat) (hi : i < items.length) (hw : i < ws.length) (ω1 : Ω)
    (hsame : HashToPrime L ω1 (items.get ⟨i, hi⟩) = HashToPrime L (ω i) (items.get ⟨i, hi⟩)) :
    Verify L { N := key.N } ω1 acc (ws.get ⟨i, hw⟩) (items.get ⟨i, hi⟩) = some true :=
  Verify_of_same_prime L key hk (base_coprime_of_ne hk hP hQ) ω items acc ws hacc i hi hw ω1
    hsame

/-! ## The properties of the accumulator -/

/-- C1, positive soundness, fails on the code. `Accumulate` and `Verify` each call
`HashToPrime`, and the two calls need not return the same prime. Here
`Accumulate` runs with no call reading the extra byte and returns the value
`3` with the witness `17` for the item `[1]`, whose prime was `7`; the call of
`Verify` reads the extra byte, draws `11`, and rejects the witness. With the
prime of `Accumulate` the same witness is accepted. -/
theorem honest_witness_rejected :
    WellFormed toyKey ∧ Int.gcd base toyKey.N = 1 ∧
      Accumulate toyLib toyKey plain [[1], [2, 3], [], [1]] = some (3, [17, 12, 33, 17]) ∧
      Verify toyLib { N := toyKey.N } true 3 17 [1] = some false ∧
      Verify toyLib { N := toyKey.N } false 3 17 [1] = some true := by
  decide

/-- C2, determinism of `HashToPrime`, fails on the code. Two calls on the same bytes `[2, 3]`
return `11` when the prime search does not read the extra byte and `13` when it
does. -/
theorem HashToPrime_two_calls_differ :
    HashToPrime toyLib false [2, 3] = some 11 ∧ HashToPrime toyLib true [2, 3] = some 13 := by
  decide

/-- Counterexample to C3: `Verify` is not total. Its call of `HashToPrime` panics when the
prime search fails, and `Verify` has no result then. -/
theorem Verify_not_total :
    HashToPrime toyLib false [1, 2, 3, 4, 5, 6] = none ∧
      Verify toyLib { N := 35 } false 3 17 [1, 2, 3, 4, 5, 6] = none ∧
      ¬ ∀ (ω : Bool) (key : PublicKey) (acc witness : Int) (item : Bytes),
          ∃ b, Verify toyLib key ω acc witness item = some b := by
  refine ⟨by decide, by decide, ?_⟩
  intro hall
  obtain ⟨b, hb⟩ := hall false { N := 35 } 3 17 [1, 2, 3, 4, 5, 6]
  have hnone : Verify toyLib { N := 35 } false 3 17 [1, 2, 3, 4, 5, 6] = none := by decide
  rw [hnone] at hb
  exact absurd hb (by simp)

/-- C3 as amended. `Verify` fails only inside its call of `HashToPrime`: for a modulus
`N ≠ 0` and every `acc`, `witness` and item, when that call returns the prime
`c`, `Verify` returns a boolean, which is `true` exactly when
`acc = witness ^ c mod N` (the reduction into `[0, |N|)`); when that call
panics, `Verify` has no result. -/
theorem Verify_exact {H Ω : Type} (L : Sha3Rand H Ω) (key : PublicKey) (hN : key.N ≠ 0)
    (ω : Ω) (acc witness : Int) (item : Bytes) :
    (∀ c, HashToPrime L ω item = some c →
        ∃ b, Verify L key ω acc witness item = some b ∧
          (b = true ↔ acc = witness ^ c % key.N) ∧
          0 ≤ witness ^ c % key.N ∧ witness ^ c % key.N < |key.N|) ∧
      (HashToPrime L ω item = none → Verify L key ω acc witness item = none) := by
  constructor
  · intro c hc
    refine ⟨decide (acc = witness ^ c % key.N), ?_, by simp, Int.emod_nonneg _ hN,
      Int.emod_lt _ hN⟩
    simp only [Verify, hc, Exp]
  · intro hnone
    simp only [Verify, hnone]

/-- Witness of C3 as amended: the modulus `35` and the item `[1]`, whose call draws `7`; a
matching and a non-matching accumulator value. -/
theorem Verify_exact_witness :
    Verify toyLib { N := 35 } false 3 17 [1] = some true ∧
      Verify toyLib { N := 35 } false 4 17 [1] = some false ∧
      ((∀ c, HashToPrime toyLib false [1] = some c →
          ∃ b, Verify toyLib { N := 35 } false 3 17 [1] = some b ∧
            (b = true ↔ (3 : Int) = 17 ^ c % 35) ∧
            0 ≤ (17 : Int) ^ c % 35 ∧ (17 : Int) ^ c % 35 < |35|) ∧
        (HashToPrime toyLib false [1] = none →
          Verify toyLib { N := 35 } false 3 17 [1] = none)) :=
  ⟨by decide, by decide, Verify_exact toyLib { N := 35 } (by decide) false 3 17 [1]⟩

/-- C4, the accumulator value. For a key with `Totient > 0` and a non-empty batch whose
primes in this execution are `primes[j] = HashToPrime(items[j])`: the
multiply-then-reduce loop ends with `exp = (∏ primes) mod Totient`, and every
value that `Accumulate` returns for the batch is `acc = 65537 ^ exp mod N`. -/
theorem Accumulate_value {H Ω : Type} (L : Sha3Rand H Ω) (key : PrivateKey) (ω : Nat → Ω)
    (hT : 0 < key.Totient) (items : List Bytes) (hne : items ≠ []) (primes : List Nat)
    (hprimes : items.enum.map (primeOf L ω) = primes.map some) :
    expLoop key.Totient primes 1 = some (((primes.prod : Nat) : Int) % key.Totient) ∧
      ∀ (acc : Int) (ws : List Int), Accumulate L key ω items = some (acc, ws) →
        acc = 65537 ^ (((primes.prod : Nat) : Int) % key.Totient).toNat % key.N := by
  have h1 := (ParallelFor_eq_some_iff_map _ _ _).2 hprimes
  have hpne : primes ≠ [] := by
    intro h
    apply hne
    have := (primes_get h1).1
    rw [h] at this
    exact List.length_eq_zero.1 this.symm
  have hexp := expLoop_eq hT.ne' primes 1
  rw [if_neg hpne, one_mul] at hexp
  refine ⟨hexp, ?_⟩
  intro acc ws hacc
  obtain ⟨primes1, exp, g1, g2, g3, -⟩ := (Accumulate_eq_some_iff L key ω items acc ws).1 hacc
  rw [h1] at g1
  have hpp : primes = primes1 := Option.some.inj g1
  rw [← hpp, hexp] at g2
  rw [g3, ← Option.some.inj g2]
  rfl

/-- Witness of C4: the batch of four items under the key `P = 5`, `Q = 7`; the primes are
`7, 11, 5, 7`, the exponent is `7 * 11 * 5 * 7 mod 24 = 7` and the value is `3`. -/
theorem Accumulate_value_witness :
    Accumulate toyLib toyKey plain [[1], [2, 3], [], [1]] = some (3, [17, 12, 33, 17]) ∧
      expLoop toyKey.Totient [7, 11, 5, 7] 1 = some 7 ∧
      (expLoop toyKey.Totient [7, 11, 5, 7] 1
          = some ((([7, 11, 5, 7] : List Nat).prod : Int) % toyKey.Totient) ∧
        ∀ (acc : Int) (ws : List Int),
          Accumulate toyLib toyKey plain [[1], [2, 3], [], [1]] = some (acc, ws) →
          acc = 65537 ^ ((([7, 11, 5, 7] : List Nat).prod : Int) % toyKey.Totient).toNat
            % toyKey.N) :=
  ⟨by decide, by decide,
    Accumulate_value toyLib toyKey plain (by decide) [[1], [2, 3], [], [1]] (by decide)
      [7, 11, 5, 7] (by decide)⟩

/-- C5, the witness formula and its alignment. Whenever `Accumulate` returns, there is one
witness per item, in the order of the items, and with
`primes[j] = HashToPrime(items[j])` the primes of this execution and `exp` the
aggregate exponent of the whole batch,
`witnesses[i] = 65537 ^ ((exp * inv_i) mod Totient) mod N`, where `inv_i` is the
inverse of `primes[i]` modulo `Totient` in `[0, |Totient|)`. -/
theorem Accumulate_witnesses {H Ω : Type} (L : Sha3Rand H Ω) (key : PrivateKey)
    (ω : Nat → Ω) (items : List Bytes) (acc : Int) (ws : List Int)
    (hacc : Accumulate L key ω items = some (acc, ws)) :
    ws.length = items.length ∧
      ∃ (primes : List Nat) (exp : Int), items.enum.map (primeOf L ω) = primes.map some ∧
        expLoop key.Totient primes 1 = some exp ∧
        (exp = if primes = [] then 1 else ((primes.prod : Nat) : Int) % key.Totient) ∧
        ∀ i (hp : i < primes.length) (hw : i < ws.length),
          ∃ inv : Int, 0 ≤ inv ∧ inv < |key.Totient| ∧
            (primes.get ⟨i, hp⟩ : Int) * inv ≡ 1 [ZMOD key.Totient] ∧
            ws.get ⟨i, hw⟩ = 65537 ^ (exp * inv % key.Totient).toNat % key.N := by
  obtain ⟨primes, exp, h1, h2, h3, h4⟩ := (Accumulate_eq_some_iff L key ω items acc ws).1 hacc
  refine ⟨(ParallelFor_length h4).trans (primes_get h1).1, primes, exp,
    (ParallelFor_eq_some_iff_map _ _ _).1 h1, h2, expLoop_eq_some h2, ?_⟩
  intro i hp hw
  obtain ⟨hT0, inv, hinv, hwi⟩ := witnessOf_eq_some.1 (ParallelFor_get h4 i hp hw)
  obtain ⟨-, hge, hlt, hmod⟩ := ModInverse_spec hinv
  exact ⟨inv, hge, hlt hT0, hmod, hwi⟩

/-- Witness of C5: the four witnesses of the batch of four items under the key `P = 5`,
`Q = 7`. -/
theorem Accumulate_witnesses_witness :
    ([17, 12, 33, 17] : List Int).length = ([[1], [2, 3], [], [1]] : List Bytes).length ∧
      ∃ (primes : List Nat) (exp : Int),
        ([[1], [2, 3], [], [1]] : List Bytes).enum.map (primeOf toyLib plain)
          = primes.map some ∧
        expLoop toyKey.Totient primes 1 = some exp ∧
        (exp = if primes = [] then 1 else ((primes.prod : Nat) : Int) % toyKey.Totient) ∧
        ∀ i (hp : i < primes.length) (hw : i < ([17, 12, 33, 17] : List Int).length),
          ∃ inv : Int, 0 ≤ inv ∧ inv < |toyKey.Totient| ∧
            (primes.get ⟨i, hp⟩ : Int) * inv ≡ 1 [ZMOD toyKey.Totient] ∧
            ([17, 12, 33, 17] : List Int).get ⟨i, hw⟩
              = 65537 ^ (exp * inv % toyKey.Totient).toNat % toyKey.N :=
  Accumulate_witnesses toyLib toyKey plain [[1], [2, 3], [], [1]] 3 [17, 12, 33, 17]
    (by decide)

/-- C6, the witness as accumulator of the batch without its item, fails on the code. In the
execution on four items the witness of slot `1` is `12`. A separate call of
`Accumulate` on the batch with position `1` removed draws its primes anew; when
its calls read the extra byte it returns the value `3`, not `12`. -/
theorem witness_differs_from_acc_without :
    (1 : Int) < toyKey.Totient ∧
      Accumulate toyLib toyKey plain [[1], [2, 3], [], [1]] = some (3, [17, 12, 33, 17]) ∧
      Accumulate toyLib toyKey skipping (([[1], [2, 3], [], [1]] : List Bytes).eraseIdx 1)
        = some (3, [12, 17, 12]) ∧
      ([17, 12, 33, 17] : List Int).get ⟨1, by decide⟩ ≠ 3 := by
  decide

/-- C7, batch-order invariance of the accumulator value, fails on the code. Two calls of
`Accumulate` on the same items in two orders draw their primes separately: the
first returns `17`, the second, whose calls read the extra byte, returns `12`. -/
theorem Accumulate_acc_not_invariant :
    ([[1], [2, 3], []] : List Bytes).Perm [[2, 3], [], [1]] ∧
      (Accumulate toyLib toyKey plain [[1], [2, 3], []]).map Prod.fst = some 17 ∧
      (Accumulate toyLib toyKey skipping [[2, 3], [], [1]]).map Prod.fst = some 12 := by
  decide

/-- C8, alignment of the witnesses under reordering, fails on the code. The batch
`[1], [2, 3], []` gets the witnesses `3, 33, 12`. A second call of `Accumulate`
on the reordered batch `[2, 3], [], [1]`, whose calls read the extra byte,
returns the value `12` and the witnesses `12, 33, 3`, not the value `17` and the
reordered witnesses `33, 12, 3`. -/
theorem Accumulate_witnesses_not_aligned :
    Accumulate toyLib toyKey plain [[1], [2, 3], []] = some (17, [3, 33, 12]) ∧
      Accumulate toyLib toyKey skipping [[2, 3], [], [1]] = some (12, [12, 33, 3]) ∧
      ([12, 33, 3] : List Int) ≠ [33, 12, 3] := by
  decide

/-- C9, the single-item batch. For a key whose `P` and `Q` are distinct primes with
`N = P*Q`, `Totient = (P-1)*(Q-1)` and `base` coprime to `N`, the value that
`Accumulate` returns for the batch of the one item `A` is
`65537 ^ HashToPrime(A) mod N`, with the unreduced prime of this execution as
exponent. -/
theorem Accumulate_single {H Ω : Type} (L : Sha3Rand H Ω) (key : PrivateKey)
    (hk : WellFormed key) (hb : Int.gcd base key.N = 1) (ω : Nat → Ω) (A : Bytes) (acc : Int)
    (ws : List Int) (hacc : Accumulate L key ω [A] = some (acc, ws)) :
    ∃ c : Nat, HashToPrime L (ω 0) A = some c ∧ acc = 65537 ^ c % key.N := by
  obtain ⟨primes, exp, h1, h2, h3, -⟩ := (Accumulate_eq_some_iff L key ω [A] acc ws).1 hacc
  have hmap := (ParallelFor_eq_some_iff_map _ _ _).1 h1
  cases primes with
  | nil => simp at hmap
  | cons c rest =>
    cases rest with
    | cons c2 rest2 => simp at hmap
    | nil =>
      simp only [List.enum_singleton, List.map_cons, List.map_nil, List.cons.injEq, and_true,
        primeOf] at hmap
      have hT0 : key.Totient ≠ 0 := hk.totient_pos.ne'
      have hexp := expLoop_eq_some h2
      simp only [reduceCtorEq, if_false, List.prod_cons, List.prod_nil, mul_one] at hexp
      refine ⟨c, hmap, ?_⟩
      rw [h3, hexp]
      have := Exp_base_congr hk hb (Int.emod_nonneg (c : Int) hT0) (Int.natCast_nonneg c)
        (Int.mod_modEq (c : Int) key.Totient)
      rw [this]
      simp [Exp, base]

/-- Witness of C9: the one-item batch `[2, 3]`, whose prime is `11`, under the key `P = 5`,
`Q = 7`. -/
theorem Accumulate_single_witness :
    Accumulate toyLib toyKey plain [[2, 3]] = some (33, [17]) ∧
      ∃ c : Nat, HashToPrime toyLib (plain 0) [2, 3] = some c ∧
        (33 : Int) = 65537 ^ c % toyKey.N :=
  ⟨by decide,
    Accumulate_single toyLib toyKey (by decide) (by decide) plain [2, 3] 33 [17] (by decide)⟩

/-- C10, equal witnesses for duplicate items, fails on the code. Slots `0` and `3` hold the
same item `[1]`, but each slot makes its own call of `HashToPrime`: when only
the call of slot `3` reads the extra byte, the two primes are `7` and `11` and
the two witnesses are `12` and `17`. -/
theorem Accumulate_duplicates_differ :
    ([[1], [2, 3], [], [1]] : List Bytes).get ⟨0, by decide⟩
        = ([[1], [2, 3], [], [1]] : List Bytes).get ⟨3, by decide⟩ ∧
      Accumulate toyLib toyKey skipAtThree [[1], [2, 3], [], [1]]
        = some (33, [12, 17, 3, 17]) ∧
      ([12, 17, 3, 17] : List Int).get ⟨0, by decide⟩
        ≠ ([12, 17, 3, 17] : List Int).get ⟨3, by decide⟩ := by
  decide

/-- C11, key validity. Whenever `GenerateKey` returns without error, both keys are there,
`P` and `Q` are two consecutive draws of the source (a pair `2k`, `2k+1`),
`PrivateKey.N = P*Q`, `PrivateKey.Totient = (P-1)*(Q-1)`,
`PublicKey.N = PrivateKey.N` and `gcd(65537, PrivateKey.Totient) = 1`. -/
theorem GenerateKey_valid (random : PrimeSource) (fuel : Nat) (pub : Option PublicKey)
    (priv : Option PrivateKey) (h : GenerateKey random fuel = some (pub, priv, none)) :
    ∃ (k p q : Nat) (publicKey : PublicKey) (privateKey : PrivateKey),
      pub = some publicKey ∧ priv = some privateKey ∧
      random.Prime (2 * k) 1024 = Except.ok p ∧ random.Prime (2 * k + 1) 1024 = Except.ok q ∧
      privateKey.P = (p : Int) ∧ privateKey.Q = (q : Int) ∧
      privateKey.N = privateKey.P * privateKey.Q ∧
      privateKey.Totient = (privateKey.P - 1) * (privateKey.Q - 1) ∧
      publicKey.N = privateKey.N ∧ Int.gcd 65537 privateKey.Totient = 1 := by
  obtain ⟨k, -, -, hk⟩ := (GenerateKey_eq_some_iff random fuel _).1 h
  obtain ⟨p, q, hp, hq, hg, hpub, hpriv⟩ := (generateKeyBody_key_iff random (2 * k) pub priv).1 hk
  exact ⟨k, p, q, _, _, hpub, hpriv, hp, hq, rfl, rfl, rfl, rfl, rfl, hg⟩

/-- Witness of C11: the reader whose second pair is `5, 7`. -/
theorem GenerateKey_valid_witness :
    GenerateKey toySource 2
        = some (some { N := 35 }, some { P := 5, Q := 7, N := 35, Totient := 24 }, none) ∧
      ∃ (k p q : Nat) (publicKey : PublicKey) (privateKey : PrivateKey),
        (some { N := 35 } : Option PublicKey) = some publicKey ∧
        (some { P := 5, Q := 7, N := 35, Totient := 24 } : Option PrivateKey)
          = some privateKey ∧
        toySource.Prime (2 * k) 1024 = Except.ok p ∧
        toySource.Prime (2 * k + 1) 1024 = Except.ok q ∧
        privateKey.P = (p : Int) ∧ privateKey.Q = (q : Int) ∧
        privateKey.N = privateKey.P * privateKey.Q ∧
        privateKey.Totient = (privateKey.P - 1) * (privateKey.Q - 1) ∧
        publicKey.N = privateKey.N ∧ Int.gcd 65537 privateKey.Totient = 1 :=
  ⟨by decide, GenerateKey_valid toySource 2 _ _ (by decide)⟩

/-- Counterexample to C12: a source that yields the prime `3` at every call. `GenerateKey`
accepts the first pair, since `gcd(65537, 2 * 2) = 1`, and returns a key with
`P = Q = 3`: the two draws are never compared. -/
theorem GenerateKey_equal_primes :
    (∀ k bits v, repeatSource.Prime k bits = Except.ok v → Nat.Prime v) ∧
      GenerateKey repeatSource 1
        = some (some { N := 9 }, some { P := 3, Q := 3, N := 9, Totient := 4 }, none) ∧
      ¬ ∀ (random : PrimeSource) (fuel : Nat) (pub : Option PublicKey)
          (privateKey : PrivateKey),
          (∀ k bits v, random.Prime k bits = Except.ok v → Nat.Prime v) →
          GenerateKey random fuel = some (pub, some privateKey, none) →
          privateKey.P ≠ privateKey.Q := by
  have hprime : ∀ k bits v, repeatSource.Prime k bits = Except.ok v → Nat.Prime v := by
    intro k bits v hv
    have h3 : v = 3 := by
      simp only [repeatSource, Except.ok.injEq] at hv
      exact hv.symm
    rw [h3]
    exact Nat.prime_three
  refine ⟨hprime, by decide, ?_⟩
  intro hall
  exact hall repeatSource 1 (some { N := 9 }) { P := 3, Q := 3, N := 9, Totient := 4 } hprime
    (by decide) rfl

/-- C12 as amended. A successful `GenerateKey` emits as `P` and `Q` the two draws of one pair
of the source, as drawn; when the source never yields the same value twice
within a pair, the key it emits has `P ≠ Q`. -/
theorem GenerateKey_distinct (random : PrimeSource) (fuel : Nat) (pub : Option PublicKey)
    (privateKey : PrivateKey)
    (hd : ∀ k p q, random.Prime (2 * k) 1024 = Except.ok p →
      random.Prime (2 * k + 1) 1024 = Except.ok q → p ≠ q)
    (h : GenerateKey random fuel = some (pub, some privateKey, none)) :
    (∃ k p q : Nat, random.Prime (2 * k) 1024 = Except.ok p ∧
        random.Prime (2 * k + 1) 1024 = Except.ok q ∧
        privateKey.P = (p : Int) ∧ privateKey.Q = (q : Int)) ∧
      privateKey.P ≠ privateKey.Q := by
  obtain ⟨k, -, -, hk⟩ := (GenerateKey_eq_some_iff random fuel _).1 h
  obtain ⟨p, q, hp, hq, -, -, hpriv⟩ := (generateKeyBody_key_iff random (2 * k) pub _).1 hk
  have hkey := Option.some.inj hpriv
  subst hkey
  refine ⟨⟨k, p, q, hp, hq, rfl, rfl⟩, ?_⟩
  intro heq
  exact hd k p q hp hq (Int.natCast_inj.1 heq)

/-- Witness of C12 as amended: the reader whose pairs are `917519, 3` and `5, 7`. -/
theorem GenerateKey_distinct_witness :
    (∃ k p q : Nat, toySource.Prime (2 * k) 1024 = Except.ok p ∧
        toySource.Prime (2 * k + 1) 1024 = Except.ok q ∧
        (5 : Int) = (p : Int) ∧ (7 : Int) = (q : Int)) ∧
      (5 : Int) ≠ 7 := by
  have hd : ∀ k p q, toySource.Prime (2 * k) 1024 = Except.ok p →
      toySource.Prime (2 * k + 1) 1024 = Except.ok q → p ≠ q := by
    intro k p q hp hq
    match k with
    | 0 =>
      simp only [toySource, Except.ok.injEq] at hp hq
      omega
    | 1 =>
      simp only [toySource, Except.ok.injEq] at hp hq
      omega
    | k + 2 =>
      have hpos : 2 * (k + 2) = 2 * k + 4 := by ring
      rw [hpos] at hp
      exact absurd hp (by simp [toySource])
  exact GenerateKey_distinct toySource 2 (some { N := 35 })
    { P := 5, Q := 7, N := 35, Totient := 24 } hd (by decide)

/-- C13, `GenerateKey` fails only on a failure of the source and passes that failure on.
`GenerateKey` returns the error `e` exactly when some draw of the source fails
with `e`, every earlier draw succeeded and no complete earlier pair was
accepted; with an error both returned keys are `nil`, and without an error
both keys are there. -/
theorem GenerateKey_error (random : PrimeSource) :
    (∀ e : String,
      (∃ fuel pub priv, GenerateKey random fuel = some (pub, priv, some e)) ↔
        ∃ n, random.Prime n 1024 = Except.error e ∧
          (∀ i, i < n → ∃ v, random.Prime i 1024 = Except.ok v) ∧
          ∀ k, 2 * k + 1 < n → ¬ Accepted random k) ∧
      (∀ fuel pub priv e, GenerateKey random fuel = some (pub, priv, some e) →
        pub = none ∧ priv = none) ∧
      (∀ fuel pub priv, GenerateKey random fuel = some (pub, priv, none) →
        pub ≠ none ∧ priv ≠ none) := by
  refine ⟨?_, ?_, ?_⟩
  · intro e
    constructor
    · rintro ⟨fuel, pub, priv, h⟩
      obtain ⟨j, -, hall, hj⟩ := (GenerateKey_eq_some_iff random fuel _).1 h
      obtain ⟨-, -, herr⟩ := (generateKeyBody_error_iff random (2 * j) pub priv e).1 hj
      -- every draw of an earlier pair succeeded
      have hearly : ∀ m, m < j → (∃ v, random.Prime (2 * m) 1024 = Except.ok v) ∧
          ∃ v, random.Prime (2 * m + 1) 1024 = Except.ok v := by
        intro m hm
        obtain ⟨p, q, hp, hq, -⟩ := (generateKeyBody_eq_none_iff random (2 * m)).1 (hall m hm)
        exact ⟨⟨p, hp⟩, ⟨q, hq⟩⟩
      have hdraw : ∀ i, i < 2 * j → ∃ v, random.Prime i 1024 = Except.ok v := by
        intro i hi
        rcases Nat.even_or_odd' i with ⟨m, hm | hm⟩
        · rw [hm]
          exact (hearly m (by omega)).1
        · rw [hm]
          exact (hearly m (by omega)).2
      rcases herr with h0 | ⟨p, hp, h1⟩
      · refine ⟨2 * j, h0, hdraw, ?_⟩
        intro k hk
        exact generateKeyBody_none_not_accepted (hall k (by omega))
      · refine ⟨2 * j + 1, h1, ?_, ?_⟩
        · intro i hi
          by_cases hi2 : i < 2 * j
          · exact hdraw i hi2
          · have hij : i = 2 * j := by omega
            rw [hij]
            exact ⟨p, hp⟩
        · intro k hk
          exact generateKeyBody_none_not_accepted (hall k (by omega))
    · rintro ⟨n, hn, hok, hrej⟩
      have hnone : ∀ i, i < n / 2 → generateKeyBody random (2 * i) = none := by
        intro i hi
        exact generateKeyBody_of_not_accepted (hok (2 * i) (by omega))
          (hok (2 * i + 1) (by omega)) (hrej i (by omega))
      rcases Nat.even_or_odd' n with ⟨m, hm | hm⟩
      · have hm2 : n / 2 = m := by omega
        refine ⟨m + 1, none, none, (GenerateKey_eq_some_iff random _ _).2
          ⟨m, Nat.lt_succ_self m, hm2 ▸ hnone, ?_⟩⟩
        refine (generateKeyBody_error_iff random (2 * m) none none e).2 ⟨rfl, rfl, Or.inl ?_⟩
        rw [← hm]
        exact hn
      · have hm2 : n / 2 = m := by omega
        obtain ⟨p, hp⟩ := hok (2 * m) (by omega)
        refine ⟨m + 1, none, none, (GenerateKey_eq_some_iff random _ _).2
          ⟨m, Nat.lt_succ_self m, hm2 ▸ hnone, ?_⟩⟩
        refine (generateKeyBody_error_iff random (2 * m) none none e).2
          ⟨rfl, rfl, Or.inr ⟨p, hp, ?_⟩⟩
        rw [← hm]
        exact hn
  · intro fuel pub priv e h
    obtain ⟨j, -, -, hj⟩ := (GenerateKey_eq_some_iff random fuel _).1 h
    obtain ⟨h1, h2, -⟩ := (generateKeyBody_error_iff random (2 * j) pub priv e).1 hj
    exact ⟨h1, h2⟩
  · intro fuel pub priv h
    obtain ⟨j, -, -, hj⟩ := (GenerateKey_eq_some_iff random fuel _).1 h
    obtain ⟨p, q, -, -, -, h1, h2⟩ := (generateKeyBody_key_iff random (2 * j) pub priv).1 hj
    rw [h1, h2]
    exact ⟨by simp, by simp⟩

/-- Witness of C13: a reader whose first pair is rejected and whose draw number 3 fails with
`EOF`; `GenerateKey` returns that error and no keys. -/
theorem GenerateKey_error_witness :
    GenerateKey failSource 2 = some (none, none, some "EOF") ∧
      ((∃ fuel pub priv, GenerateKey failSource fuel = some (pub, priv, some "EOF")) ↔
        ∃ n, failSource.Prime n 1024 = Except.error "EOF" ∧
          (∀ i, i < n → ∃ v, failSource.Prime i 1024 = Except.ok v) ∧
          ∀ k, 2 * k + 1 < n → ¬ Accepted failSource k) ∧
      (GenerateKey failSource 2 = some (none, none, some "EOF") →
        (none : Option PublicKey) = none ∧ (none : Option PrivateKey) = none) :=
  ⟨by decide, (GenerateKey_error failSource).1 "EOF",
    (GenerateKey_error failSource).2.1 2 none none "EOF"⟩

/-- Counterexample to C17: no number bounds the passes of the loop. The source that never
fails and yields the prime `917519 = 14 * 65537 + 1` at every call has every
pair rejected, so `GenerateKey` has not returned after any number of passes. -/
theorem GenerateKey_unbounded :
    (∀ n, ∃ v, stuckSource.Prime n 1024 = Except.ok v ∧ Nat.Prime v) ∧
      (∀ fuel, GenerateKey stuckSource fuel = none) ∧
      ¬ ∃ bound : Nat, ∀ random : PrimeSource,
          (∀ n, ∃ v, random.Prime n 1024 = Except.ok v) →
          ∃ fuel, fuel ≤ bound ∧ ∃ r, GenerateKey random fuel = some r := by
  refine ⟨fun n => ⟨917519, rfl, by norm_num⟩, GenerateKey_stuckSource, ?_⟩
  rintro ⟨bound, hb⟩
  obtain ⟨fuel, -, r, hr⟩ := hb stuckSource (fun n => ⟨917519, rfl⟩)
  rw [GenerateKey_stuckSource] at hr
  exact absurd hr (by simp)

/-- C17 as amended. The retry loop has no fixed bound: for a source that never fails,
`GenerateKey` returns in the pass that draws the first accepted pair. If pair
number `k` is the first accepted one, the loop has not returned within `k`
passes, and with more than `k` passes it returns the key made of that pair. -/
theorem GenerateKey_returns_at_first_accepted (random : PrimeSource)
    (hok : ∀ n, ∃ v, random.Prime n 1024 = Except.ok v) (k : Nat)
    (hk : Accepted random k) (hfirst : ∀ j, j < k → ¬ Accepted random j) :
    (∀ fuel, fuel ≤ k → GenerateKey random fuel = none) ∧
      ∃ (p q : Nat), random.Prime (2 * k) 1024 = Except.ok p ∧
        random.Prime (2 * k + 1) 1024 = Except.ok q ∧
        ∀ fuel, k < fuel → GenerateKey random fuel
          = some (some { N := (p : Int) * (q : Int) },
              some { P := (p : Int), Q := (q : Int), N := (p : Int) * (q : Int),
                     Totient := ((p : Int) - 1) * ((q : Int) - 1) }, none) := by
  have hnone : ∀ j, j < k → generateKeyBody random (2 * j) = none := fun j hj =>
    generateKeyBody_of_not_accepted (hok _) (hok _) (hfirst j hj)
  obtain ⟨p, q, hp, hq, hg⟩ := hk
  have hbody := (generateKeyBody_key_iff random (2 * k) _ _).2 ⟨p, q, hp, hq, hg, rfl, rfl⟩
  constructor
  · intro fuel hfuel
    cases h : GenerateKey random fuel with
    | none => rfl
    | some r =>
      obtain ⟨j, hj, -, hret⟩ := (GenerateKey_eq_some_iff random fuel r).1 h
      rw [hnone j (by omega)] at hret
      exact absurd hret (by simp)
  · exact ⟨p, q, hp, hq, fun fuel hfuel =>
      (GenerateKey_eq_some_iff random fuel _).2 ⟨k, hfuel, hnone, hbody⟩⟩

/-- Witness of C17 as amended: a reader that never fails, whose pair 0 is `917519, 7`
(rejected) and whose pair 1 is `5, 7` (accepted): nothing after one pass, the
key after two. -/
theorem GenerateKey_returns_at_first_accepted_witness :
    GenerateKey slowSource 1 = none ∧
      GenerateKey slowSource 2
        = some (some { N := 35 }, some { P := 5, Q := 7, N := 35, Totient := 24 }, none) ∧
      ((∀ fuel, fuel ≤ 1 → GenerateKey slowSource fuel = none) ∧
        ∃ (p q : Nat), slowSource.Prime (2 * 1) 1024 = Except.ok p ∧
          slowSource.Prime (2 * 1 + 1) 1024 = Except.ok q ∧
          ∀ fuel, 1 < fuel → GenerateKey slowSource fuel
            = some (some { N := (p : Int) * (q : Int) },
                some { P := (p : Int), Q := (q : Int), N := (p : Int) * (q : Int),
                       Totient := ((p : Int) - 1) * ((q : Int) - 1) }, none)) := by
  have hok : ∀ n, ∃ v, slowSource.Prime n 1024 = Except.ok v := by
    intro n
    simp only [slowSource]
    split_ifs
    · exact ⟨_, rfl⟩
    · exact ⟨_, rfl⟩
    · exact ⟨_, rfl⟩
  have hk : Accepted slowSource 1 := ⟨5, 7, rfl, rfl, by decide⟩
  have hfirst : ∀ j, j < 1 → ¬ Accepted slowSource j := by
    intro j hj
    have hj0 : j = 0 := by omega
    subst hj0
    rintro ⟨p, q, hp, hq, hg⟩
    have hp1 : p = 917519 := by
      simp only [slowSource] at hp
      exact (Except.ok.inj hp).symm
    have hq1 : q = 7 := by
      simp only [slowSource] at hq
      exact (Except.ok.inj hq).symm
    subst hp1 hq1
    exact absurd hg (by decide)
  exact ⟨by decide, by decide, GenerateKey_returns_at_first_accepted slowSource hok 1 hk hfirst⟩

/-- C14, output ranges. For a key with `N > 0` and a batch on which `Accumulate` returns,
the accumulator value lies in `[0, N)` and so does every witness. -/
theorem Accumulate_range {H Ω : Type} (L : Sha3Rand H Ω) (key : PrivateKey) (hN : 0 < key.N)
    (ω : Nat → Ω) (items : List Bytes) (acc : Int) (ws : List Int)
    (hacc : Accumulate L key ω items = some (acc, ws)) :
    (0 ≤ acc ∧ acc < key.N) ∧
      ∀ i (hw : i < ws.length), 0 ≤ ws.get ⟨i, hw⟩ ∧ ws.get ⟨i, hw⟩ < key.N := by
  obtain ⟨primes, exp, h1, -, h3, h4⟩ := (Accumulate_eq_some_iff L key ω items acc ws).1 hacc
  have hrange : ∀ e : Nat, 0 ≤ Exp base e key.N ∧ Exp base e key.N < key.N := fun e =>
    ⟨Int.emod_nonneg _ hN.ne', Int.emod_lt_of_pos _ hN⟩
  refine ⟨h3 ▸ hrange _, ?_⟩
  intro i hw
  have hp : i < primes.length := (ParallelFor_length h4) ▸ hw
  obtain ⟨-, inv, -, hwi⟩ := witnessOf_eq_some.1 (ParallelFor_get h4 i hp hw)
  rw [hwi]
  exact hrange _

/-- Witness of C14: the four-item batch under the key `P = 5`, `Q = 7`, `N = 35`. -/
theorem Accumulate_range_witness :
    ((0 : Int) ≤ 3 ∧ (3 : Int) < toyKey.N) ∧
      ∀ i (hw : i < ([17, 12, 33, 17] : List Int).length),
        0 ≤ ([17, 12, 33, 17] : List Int).get ⟨i, hw⟩ ∧
          ([17, 12, 33, 17] : List Int).get ⟨i, hw⟩ < toyKey.N :=
  Accumulate_range toyLib toyKey (by decide) plain [[1], [2, 3], [], [1]] 3 [17, 12, 33, 17]
    (by decide)

/-- C15, a non-invertible prime is fatal. For every key and every batch in which the prime
that this execution computes for some item shares a factor greater than `1`
with `Totient`, `Accumulate` aborts: it returns no result, hence no witnesses
sequence with a wrong witness at that index. -/
theorem Accumulate_abort {H Ω : Type} (L : Sha3Rand H Ω) (key : PrivateKey) (ω : Nat → Ω)
    (items : List Bytes) (i : Nat) (hi : i < items.length) (c : Nat)
    (hc : HashToPrime L (ω i) (items.get ⟨i, hi⟩) = some c)
    (hg : 1 < Int.gcd (c : Int) key.Totient) : Accumulate L key ω items = none := by
  cases h : Accumulate L key ω items with
  | none => rfl
  | some r =>
    exfalso
    obtain ⟨primes, h1, hcase⟩ := (Accumulate_returns_iff L key ω items).1 ⟨r, h⟩
    have hp : i < primes.length := by
      rw [(primes_get h1).1]
      exact hi
    have hci := (primes_get h1).2 i hi hp
    rw [hc] at hci
    have hcp : primes.get ⟨i, hp⟩ = c := (Option.some.inj hci).symm
    rcases hcase with hnil | ⟨-, hall⟩
    · rw [hnil] at hp
      exact absurd hp (Nat.not_lt_zero i)
    · have := hall (primes.get ⟨i, hp⟩) (List.get_mem primes i hp)
      rw [hcp] at this
      omega

/-- Witness of C15: under `Totient = 24` the prime `3` of the four-byte item is not
invertible, and `Accumulate` returns nothing for a batch that holds it. -/
theorem Accumulate_abort_witness :
    HashToPrime toyLib (plain 1) [1, 2, 3, 4] = some 3 ∧
      Int.gcd (3 : Int) toyKey.Totient = 3 ∧
      Accumulate toyLib toyKey plain [[1], [1, 2, 3, 4], []] = none :=
  ⟨by decide, by decide,
    Accumulate_abort toyLib toyKey plain [[1], [1, 2, 3, 4], []] 1 (by decide) 3 (by decide)
      (by decide)⟩

/-- C18, the extension law, fails on the code. The extended batch `[1], [2, 3], []` gets
the value `17`. A separate call of `Accumulate` on `[1], [2, 3]`, whose calls
read the extra byte, returns `33`, and `33` raised to the prime of the new item
(`5`, or `7` when that call reads the extra byte) is `3` or `12` modulo `35`,
not `17`. -/
theorem Accumulate_extend_fails :
    WellFormed toyKey ∧ Int.gcd base toyKey.N = 1 ∧
      Accumulate toyLib toyKey plain ([[1], [2, 3]] ++ [[]]) = some (17, [3, 33, 12]) ∧
      Accumulate toyLib toyKey skipping [[1], [2, 3]] = some (33, [17, 33]) ∧
      HashToPrime toyLib false [] = some 5 ∧ HashToPrime toyLib true [] = some 7 ∧
      (17 : Int) ≠ 33 ^ 5 % toyKey.N ∧ (17 : Int) ≠ 33 ^ 7 % toyKey.N := by
  decide

/-- C19, the witness of a single-item batch is the bare base. For a key with `Totient > 1`
and an item `A` whose prime in this execution is invertible modulo `Totient`,
`Accumulate(A)` returns exactly one witness, and it is `65537 mod N`, whatever
the item. -/
theorem single_item_witness_is_base {H Ω : Type} (L : Sha3Rand H Ω) (key : PrivateKey)
    (ω : Nat → Ω) (hT : 1 < key.Totient) (A : Bytes) (c : Nat)
    (hc : HashToPrime L (ω 0) A = some c) (hg : Int.gcd (c : Int) key.Totient = 1) :
    ∃ acc, Accumulate L key ω [A] = some (acc, [65537 % key.N]) := by
  have hT0 : key.Totient ≠ 0 := by omega
  obtain ⟨inv, hinv⟩ := ModInverse_exists hT0 hg
  have hmod : (c : Int) * inv % key.Totient = 1 % key.Totient := (ModInverse_spec hinv).2.2.2
  have hone : (1 : Int) % key.Totient = 1 := Int.emod_eq_of_lt (by norm_num) hT
  have hexp : ((c : Int) % key.Totient) * inv % key.Totient = 1 := by
    rw [Int.mul_emod, Int.emod_emod, ← Int.mul_emod, hmod, hone]
  have hw : witnessOf key ((c : Int) % key.Totient) c = some (65537 % key.N) := by
    refine witnessOf_eq_some.2 ⟨hT0, inv, hinv, ?_⟩
    rw [hexp]
    simp [Exp, base]
  refine ⟨Exp base ((c : Int) % key.Totient).toNat key.N,
    (Accumulate_eq_some_iff L key ω [A] _ _).2
      ⟨[c], (c : Int) % key.Totient, ?_, ?_, rfl, ?_⟩⟩
  · simp [ParallelFor, primeOf, hc]
  · simp [expLoop, Mod, hT0]
  · simp [ParallelFor, hw]

/-- Witness of C19: the one-item batch `[2, 3]` under the key `P = 5`, `Q = 7`; the witness
is `65537 mod 35 = 17`. -/
theorem single_item_witness_is_base_witness :
    Accumulate toyLib toyKey plain [[2, 3]] = some (33, [17]) ∧
      ∃ acc, Accumulate toyLib toyKey plain [[2, 3]] = some (acc, [65537 % toyKey.N]) :=
  ⟨by decide,
    single_item_witness_is_base toyLib toyKey plain (by decide) [2, 3] 11 (by decide)
      (by decide)⟩

/-- C20, positive soundness for a key whose `Totient` is divisible by `65537`, fails on the
code as it does for every key. The key `P = 917519`, `Q = 2` has distinct primes,
neither equal to `65537`, and `Totient = 917518 = 14 * 65537`. `Accumulate`, with no
call reading the extra byte, returns the value `1801341` and the witnesses
`1767441` and `352359` for the empty item and `[2, 3]`; the calls of `Verify`
that read the extra byte draw other primes and reject both witnesses, while
with the primes of `Accumulate` both are accepted. -/
theorem Verify_rejects_any_totient :
    WellFormed oddKey ∧ oddKey.P ≠ 65537 ∧ oddKey.Q ≠ 65537 ∧
      (65537 : Int) ∣ oddKey.Totient ∧
      Accumulate toyLib oddKey plain [[], [2, 3]] = some (1801341, [1767441, 352359]) ∧
      Verify toyLib { N := oddKey.N } true 1801341 1767441 [] = some false ∧
      Verify toyLib { N := oddKey.N } true 1801341 352359 [2, 3] = some false ∧
      Verify toyLib { N := oddKey.N } false 1801341 1767441 [] = some true ∧
      Verify toyLib { N := oddKey.N } false 1801341 352359 [2, 3] = some true := by
  have hk : WellFormed oddKey :=
    ⟨by show Nat.Prime 917519; norm_num, by show Nat.Prime 2; norm_num, by decide, by decide,
      by decide⟩
  have hinv5 : ModInverse ((5 : Nat) : Int) oddKey.Totient = some 550511 :=
    ModInverse_eq_of (by decide) (by decide) (by decide) (by decide) (by decide)
  have hinv11 : ModInverse ((11 : Nat) : Int) oddKey.Totient = some 333643 :=
    ModInverse_eq_of (by decide) (by decide) (by decide) (by decide) (by decide)
  have hw5 : witnessOf oddKey 55 5 = some 1767441 :=
    witnessOf_eq_some.2 ⟨by decide, 550511, hinv5, by decide⟩
  have hw11 : witnessOf oddKey 55 11 = some 352359 :=
    witnessOf_eq_some.2 ⟨by decide, 333643, hinv11, by decide⟩
  have hws : ParallelFor (witnessOf oddKey 55) [5, 11] = some [1767441, 352359] :=
    (ParallelFor_eq_some_iff _ _ _).2
      (List.Forall₂.cons hw5 (List.Forall₂.cons hw11 List.Forall₂.nil))
  have hacc : Accumulate toyLib oddKey plain [[], [2, 3]]
      = some (1801341, [1767441, 352359]) :=
    (Accumulate_eq_some_iff toyLib oddKey plain _ _ _).2
      ⟨[5, 11], 55, by decide, by decide, by decide, hws⟩
  exact ⟨hk, by decide, by decide, ⟨14, by decide⟩, hacc, by decide, by decide, by decide,
    by decide⟩

end Accumulator
